import Mathlib

/-!
Order book cross resolution (`hummingbot/core/cpp/OrderBookEntry.cpp`).

A shallow embedding of `OrderBookEntry` and of `truncateOverlapEntries`.

* `double` prices and amounts are modelled by rationals: every finite `double`
  is a rational and the code only ever compares them.
* `int64_t updateId` is an integer; the code only compares it.
* `std::set<OrderBookEntry>` is the list of its nodes in ascending `operator<`
  order.  An iterator is the rank of the node it refers to (rank `size()` is
  `end()`); erasing a node re-numbers the iterators behind it and invalidates
  the iterators that referred to it, as the container requirements say.
* `std::reverse_iterator` keeps a base iterator `current`; `*r` is `*--tmp` for
  a copy `tmp` of `current`, and `++r` is `--current`.
* Using an invalidated iterator is undefined behaviour, which the embedding
  reports as the outcome `undefinedBehaviour`.
-/

namespace OrderBook

/-- The class `OrderBookEntry` of `OrderBookEntry.h`: price, amount, updateId. -/
structure OrderBookEntry where
  price : ℚ
  amount : ℚ
  updateId : ℤ
  deriving DecidableEq

namespace OrderBookEntry

/-- The default constructor `OrderBookEntry()`. -/
def default : OrderBookEntry := ⟨0, 0, 0⟩

/-- The copy constructor `OrderBookEntry(const OrderBookEntry &other)`. -/
def copy (other : OrderBookEntry) : OrderBookEntry :=
  ⟨other.price, other.amount, other.updateId⟩

/-- The assignment `operator=`: the three fields of `other` overwrite this entry. -/
def assign (_self other : OrderBookEntry) : OrderBookEntry :=
  ⟨other.price, other.amount, other.updateId⟩

/-- The accessor `getPrice()`. -/
def getPrice (e : OrderBookEntry) : ℚ := e.price

/-- The accessor `getAmount()`. -/
def getAmount (e : OrderBookEntry) : ℚ := e.amount

/-- The accessor `getUpdateId()`. -/
def getUpdateId (e : OrderBookEntry) : ℤ := e.updateId

/-- The `operator<` of the source: `a.price < b.price`. -/
def less (a b : OrderBookEntry) : Bool := decide (a.price < b.price)

end OrderBookEntry

/-- A `std::set<OrderBookEntry>`: its nodes in ascending order. -/
abbrev Book := List OrderBookEntry

/-- The representation invariant of a `std::set<OrderBookEntry>`: strictly
ascending for `operator<`, hence one level per price. -/
def WellFormed (s : Book) : Prop := s.Pairwise (fun a b => a.price < b.price)

instance (s : Book) : Decidable (WellFormed s) := by
  unfold WellFormed; infer_instance

/-- A `std::set<OrderBookEntry>::iterator`. -/
inductive SetIterator where
  /-- refers to the node of rank `pos`; rank `size()` is the past-the-end position -/
  | atRank (pos : Nat)
  /-- the node it referred to has been erased -/
  | invalidated
  deriving DecidableEq

namespace SetIterator

/-- What erasing the node of rank `k` does to another iterator of the same
set: an iterator to the erased node is invalidated, the ones behind it move
down one rank, the ones before it (and only those) keep their rank. -/
def afterErase (k : Nat) : SetIterator → SetIterator
  | invalidated => invalidated
  | .atRank j => if j = k then invalidated else if k < j then .atRank (j - 1) else .atRank j

/-- Pre-decrement `--it`; undefined on `begin()` and on an invalidated iterator. -/
def decrement : SetIterator → Option SetIterator
  | .atRank (j + 1) => some (.atRank j)
  | _ => none

/-- Pre-increment `++it` in the set `s`; undefined on `end()` and beyond. -/
def increment (s : Book) : SetIterator → Option SetIterator
  | .atRank j => if j < s.length then some (.atRank (j + 1)) else none
  | invalidated => none

/-- Dereference `*it` in the set `s`; undefined on `end()` and on an
invalidated iterator. -/
def deref (s : Book) : SetIterator → Option OrderBookEntry
  | .atRank j => s.get? j
  | invalidated => none

end SetIterator

/-- The member `begin()`. -/
def Book.begin (_s : Book) : SetIterator := .atRank 0

/-- The member `end()`. -/
def Book.endIterator (s : Book) : SetIterator := .atRank s.length

/-- A `std::set<OrderBookEntry>::reverse_iterator`: it stores a base iterator. -/
structure ReverseIterator where
  current : SetIterator
  deriving DecidableEq

namespace ReverseIterator

/-- The member `base()`. -/
def base (r : ReverseIterator) : SetIterator := r.current

/-- Increment `r++` (and `std::next(r)` on a copy): `--current`. -/
def increment (r : ReverseIterator) : Option ReverseIterator :=
  match r.current.decrement with
  | some c => some ⟨c⟩
  | none => none

/-- Dereference `*r`: `tmp = current; return *--tmp`. -/
def deref (s : Book) (r : ReverseIterator) : Option OrderBookEntry :=
  match r.current.decrement with
  | some tmp => tmp.deref s
  | none => none

end ReverseIterator

/-- The member `rbegin()`: its base is `end()`. -/
def Book.rbegin (s : Book) : ReverseIterator := ⟨s.endIterator⟩

/-- The member `rend()`: its base is `begin()`. -/
def Book.rend (s : Book) : ReverseIterator := ⟨s.begin⟩

/-- The member `erase(it)`: undefined unless `it` refers to a node of the set. -/
def Book.erase (s : Book) : SetIterator → Option Book
  | .atRank k => if k < s.length then some (s.eraseIdx k) else none
  | .invalidated => none

/-- The variables of `truncateOverlapEntries` while its loop runs. -/
structure Frame where
  bidBook : Book
  askBook : Book
  bidIterator : ReverseIterator
  askIterator : SetIterator
  deriving DecidableEq

/-- What one pass through the `while` statement does. -/
inductive Step where
  /-- the body ran to its end; the loop test is evaluated again -/
  | again (f : Frame)
  /-- the loop is left, by its test or by `break` -/
  | leave (f : Frame)
  /-- an invalidated or out-of-range iterator was used -/
  | undefinedBehaviour
  deriving DecidableEq

/-- The first `else` branch (lines 42-44): `eraseIterator` is the base of
`std::next(bidIterator)`, then `bidIterator++`, then `bidBook.erase(eraseIterator)`. -/
def eraseTopBid (f : Frame) : Step :=
  match f.bidIterator.increment with
  | none => .undefinedBehaviour
  | some nextBid =>
    let eraseIterator := nextBid.base
    match f.bidIterator.increment with
    | none => .undefinedBehaviour
    | some bidIterator =>
      match eraseIterator, f.bidBook.erase eraseIterator with
      | .atRank k, some bidBook =>
        .again { f with bidBook := bidBook,
                        bidIterator := ⟨bidIterator.current.afterErase k⟩ }
      | _, _ => .undefinedBehaviour

/-- Line 40, `askBook.erase(askIterator++)`: the iterator is advanced first and
its old value is what `erase` receives. -/
def eraseTopAsk (f : Frame) : Step :=
  let old := f.askIterator
  match f.askIterator.increment f.askBook with
  | none => .undefinedBehaviour
  | some askIterator =>
    match old, f.askBook.erase old with
    | .atRank k, some askBook =>
      .again { f with askBook := askBook, askIterator := askIterator.afterErase k }
    | _, _ => .undefinedBehaviour

/-- One evaluation of the loop test of line 35 followed, when it holds, by the
loop body of lines 36-48. -/
def loopIteration (f : Frame) : Step :=
  match f.bidIterator.current with
  | .invalidated => .undefinedBehaviour
  | .atRank _ =>
    if f.bidIterator = f.bidBook.rend then .leave f
    else
      match f.askIterator with
      | .invalidated => .undefinedBehaviour
      | .atRank _ =>
        if f.askIterator = f.askBook.endIterator then .leave f
        else
          match f.bidIterator.deref f.bidBook, f.askIterator.deref f.askBook with
          | some topBid, some topAsk =>
            if topBid.price ≥ topAsk.price then
              if topBid.updateId > topAsk.updateId then eraseTopAsk f
              else eraseTopBid f
            else .leave f
          | _, _ => .undefinedBehaviour

/-- How a call of `truncateOverlapEntries` ends. -/
inductive Outcome where
  /-- the call returns, leaving the two sets as given -/
  | returned (bidBook askBook : Book)
  /-- the call used an invalidated or out-of-range iterator -/
  | undefinedBehaviour
  /-- the iteration budget of the embedding ran out (shown below never to happen) -/
  | outOfFuel
  deriving DecidableEq

/-- The `while` loop, with a budget of iterations. -/
def whileLoop : Nat → Frame → Outcome
  | 0, _ => .outOfFuel
  | fuel + 1, f =>
    match loopIteration f with
    | .again f' => whileLoop fuel f'
    | .leave f' => .returned f'.bidBook f'.askBook
    | .undefinedBehaviour => .undefinedBehaviour

/-- The function `truncateOverlapEntries(bidBook, askBook)`: the two iterators
are initialised to `bidBook.rbegin()` and `askBook.begin()` and the loop runs;
every pass that continues erases a node, so one pass more than there are nodes
is budget enough. -/
def truncateOverlapEntries (bidBook askBook : Book) : Outcome :=
  whileLoop (bidBook.length + askBook.length + 1)
    ⟨bidBook, askBook, bidBook.rbegin, askBook.begin⟩

/-- No bid of `bids` is priced at or above an ask of `asks`. -/
def NoCross (bids asks : Book) : Prop :=
  ∀ b ∈ bids, ∀ a ∈ asks, b.price < a.price

/-- The number of levels the call took out of the two sides. -/
def removedCount (bidsIn asksIn bidsOut asksOut : Book) : Nat :=
  (bidsIn.length + asksIn.length) - (bidsOut.length + asksOut.length)

/-- What the loop does from the state every continuing pass of a defined run
comes back to: it walks up the asks against the fixed top bid `topBid`. -/
def scanAsks (bids : Book) (topBid : OrderBookEntry) : Book → Outcome
  | [] => .returned bids []
  | topAsk :: rest =>
    if topBid.price ≥ topAsk.price then
      if topBid.updateId > topAsk.updateId then scanAsks bids topBid rest
      else .undefinedBehaviour
    else .returned bids (topAsk :: rest)

/-- The asks priced 0, 1, ..., n-1, all with updateId 0. -/
def ladder (n : Nat) : Book :=
  List.map (fun i : Nat => OrderBookEntry.mk (i : ℚ) 1 0) (List.range n)

/-- The reference procedure of the spec's algorithm (section 4.2), written from
its words and not from the cursors of the source: look up the current top of
book on each side (highest remaining bid, lowest remaining ask); while both
exist and the bid is priced at or above the ask, remove the ask if the bid's
updateId is strictly greater and the bid otherwise. -/
def referenceLoop : Nat → Book → Book → Book × Book
  | 0, bids, asks => (bids, asks)
  | fuel + 1, bids, asks =>
    match bids.getLast?, asks.head? with
    | some topBid, some topAsk =>
      if topBid.price ≥ topAsk.price then
        if topBid.updateId > topAsk.updateId then referenceLoop fuel bids asks.tail
        else referenceLoop fuel bids.dropLast asks
      else (bids, asks)
    | _, _ => (bids, asks)

/-- The reference procedure run to its end: every round removes a level, so as
many rounds as there are levels exhaust it. -/
def referenceUnwind (bids asks : Book) : Book × Book :=
  referenceLoop (bids.length + asks.length) bids asks

/-- An iterator of the set `s` is live when it refers to a node still in `s` or
to the past-the-end position. -/
def SetIterator.live (s : Book) : SetIterator → Bool
  | .atRank k => decide (k ≤ s.length)
  | .invalidated => false

/-- Both cursors of a frame are live: the base of the reverse bid iterator in
the bid set and the ask iterator in the ask set. -/
def Frame.cursorsLive (f : Frame) : Bool :=
  f.bidIterator.base.live f.bidBook && f.askIterator.live f.askBook

/-- The asks priced strictly above every bid of `bids` (all of them when there
is no bid). -/
def asksAbove (bids asks : Book) : Book :=
  asks.filter (fun a => decide (∀ b ∈ bids, b.price < a.price))

/-! ## The loop, one pass at a time -/

theorem eraseIdx_last (bs : Book) (tb : OrderBookEntry) :
    (bs ++ [tb]).eraseIdx bs.length = bs := by
  induction bs with
  | nil => rfl
  | cons b bs ih => simpa using ih

theorem loopIteration_invalidated (bids asks : Book) (ai : SetIterator) :
    loopIteration ⟨bids, asks, ⟨.invalidated⟩, ai⟩ = .undefinedBehaviour := by
  simp [loopIteration]

theorem loopIteration_no_bids (asks : Book) :
    loopIteration ⟨[], asks, Book.rbegin [], asks.begin⟩
      = .leave ⟨[], asks, Book.rbegin [], asks.begin⟩ := by
  simp [loopIteration, Book.rbegin, Book.rend, Book.endIterator, Book.begin]

theorem loopIteration_no_asks (bids : Book) :
    loopIteration ⟨bids, [], bids.rbegin, Book.begin []⟩
      = .leave ⟨bids, [], bids.rbegin, Book.begin []⟩ := by
  simp [loopIteration, Book.rbegin, Book.rend, Book.endIterator, Book.begin]

theorem loopIteration_top (bs : Book) (tb ta : OrderBookEntry) (rest : Book) :
    loopIteration ⟨bs ++ [tb], ta :: rest, Book.rbegin (bs ++ [tb]), Book.begin (ta :: rest)⟩
      = if tb.price ≥ ta.price then
          if tb.updateId > ta.updateId then
            .again ⟨bs ++ [tb], rest, Book.rbegin (bs ++ [tb]), Book.begin rest⟩
          else .again ⟨bs, ta :: rest, ⟨.invalidated⟩, Book.begin (ta :: rest)⟩
        else .leave ⟨bs ++ [tb], ta :: rest, Book.rbegin (bs ++ [tb]), Book.begin (ta :: rest)⟩ := by
  simp [loopIteration, Book.rbegin, Book.rend, Book.endIterator, Book.begin,
    ReverseIterator.deref, SetIterator.decrement, SetIterator.deref, eraseTopAsk, eraseTopBid,
    SetIterator.increment, Book.erase, SetIterator.afterErase, ReverseIterator.increment,
    ReverseIterator.base, eraseIdx_last]

/-! ## The whole loop -/

theorem whileLoop_invalidated (fuel : Nat) (bids asks : Book) (ai : SetIterator) :
    whileLoop (fuel + 1) ⟨bids, asks, ⟨.invalidated⟩, ai⟩ = .undefinedBehaviour := by
  simp [whileLoop, loopIteration_invalidated]

theorem whileLoop_scan (bs : Book) (tb : OrderBookEntry) :
    ∀ (asks : Book) (fuel : Nat), asks.length < fuel →
      whileLoop fuel ⟨bs ++ [tb], asks, Book.rbegin (bs ++ [tb]), Book.begin asks⟩
        = scanAsks (bs ++ [tb]) tb asks := by
  intro asks
  induction asks with
  | nil =>
    intro fuel hf
    obtain ⟨n, rfl⟩ : ∃ n, fuel = n + 1 := ⟨fuel - 1, by simp at hf; omega⟩
    simp [whileLoop, loopIteration_no_asks, scanAsks]
  | cons ta rest ih =>
    intro fuel hf
    obtain ⟨n, rfl⟩ : ∃ n, fuel = n + 2 := ⟨fuel - 2, by simp at hf; omega⟩
    have hrest : rest.length < n + 1 := by simp at hf; omega
    rw [whileLoop, loopIteration_top, scanAsks]
    by_cases hp : tb.price ≥ ta.price
    · by_cases hu : tb.updateId > ta.updateId
      · simp only [hp, hu, if_true]
        exact ih (n + 1) hrest
      · simp only [hp, hu, if_true, if_false]
        exact whileLoop_invalidated n bs (ta :: rest) _
    · simp only [hp, if_false]

/-- With no bid the call returns at once. -/
theorem truncate_nil_bids (asks : Book) :
    truncateOverlapEntries [] asks = .returned [] asks := by
  simp [truncateOverlapEntries, whileLoop, loopIteration_no_bids]

/-- With a top bid the call is the walk up the asks against it. -/
theorem truncate_snoc (bs : Book) (tb : OrderBookEntry) (asks : Book) :
    truncateOverlapEntries (bs ++ [tb]) asks = scanAsks (bs ++ [tb]) tb asks := by
  unfold truncateOverlapEntries
  exact whileLoop_scan bs tb asks _ (by omega)

/-- A book is empty or has a top (last, highest-priced) level. -/
theorem book_cases (s : Book) : s = [] ∨ ∃ init top, s = init ++ [top] := by
  rcases List.eq_nil_or_concat s with h | ⟨init, top, h⟩
  · exact Or.inl h
  · exact Or.inr ⟨init, top, by simpa using h⟩

theorem scanAsks_ne_outOfFuel (bids : Book) (tb : OrderBookEntry) (asks : Book) :
    scanAsks bids tb asks ≠ .outOfFuel := by
  induction asks with
  | nil => simp [scanAsks]
  | cons ta rest ih =>
    rw [scanAsks]
    split_ifs <;> simp [ih]

/-- The budget of the embedding is never exhausted: every call either returns
or meets undefined behaviour. -/
theorem truncate_ne_outOfFuel (bids asks : Book) :
    truncateOverlapEntries bids asks ≠ .outOfFuel := by
  rcases book_cases bids with rfl | ⟨bs, tb, rfl⟩
  · simp [truncate_nil_bids]
  · rw [truncate_snoc]
    exact scanAsks_ne_outOfFuel _ _ _

/-- When the walk returns, the bids are as given and the asks have lost a
prefix of levels that the top bid reached and was fresher than; the first ask
kept, if any, is above the top bid. -/
theorem scanAsks_returned (bids : Book) (tb : OrderBookEntry) :
    ∀ (asks b' a' : Book), scanAsks bids tb asks = .returned b' a' →
      b' = bids ∧ ∃ pre, asks = pre ++ a' ∧
        (∀ x ∈ pre, x.price ≤ tb.price ∧ x.updateId < tb.updateId) ∧
        (∀ hd ∈ a'.head?, tb.price < hd.price) := by
  intro asks
  induction asks with
  | nil =>
    intro b' a' h
    simp only [scanAsks, Outcome.returned.injEq] at h
    obtain ⟨rfl, rfl⟩ := h
    exact ⟨rfl, [], rfl, by simp, by simp⟩
  | cons ta rest ih =>
    intro b' a' h
    rw [scanAsks] at h
    by_cases hp : tb.price ≥ ta.price
    · by_cases hu : tb.updateId > ta.updateId
      · simp only [hp, hu, if_true] at h
        obtain ⟨hb, pre, hpre, hall, hhd⟩ := ih b' a' h
        refine ⟨hb, ta :: pre, by simp [hpre], ?_, hhd⟩
        intro x hx
        rcases List.mem_cons.mp hx with rfl | hx
        · exact ⟨hp, hu⟩
        · exact hall x hx
      · simp [hp, hu] at h
    · simp only [hp, if_false, Outcome.returned.injEq] at h
      obtain ⟨rfl, rfl⟩ := h
      refine ⟨rfl, [], rfl, by simp, ?_⟩
      intro hd hhd
      simp only [List.head?_cons, Option.mem_def, Option.some.injEq] at hhd
      subst hhd
      exact not_le.mp hp

/-- The walk returns exactly when the top bid is fresher than every ask it
reaches; what it returns is then the bids and the asks above the top bid. -/
theorem scanAsks_of_fresher (bids : Book) (tb : OrderBookEntry) :
    ∀ (pre rest : Book), (∀ x ∈ pre, x.price ≤ tb.price ∧ x.updateId < tb.updateId) →
      (∀ hd ∈ rest.head?, tb.price < hd.price) →
      scanAsks bids tb (pre ++ rest) = .returned bids rest := by
  intro pre
  induction pre with
  | nil =>
    intro rest _ hhd
    cases rest with
    | nil => simp [scanAsks]
    | cons hd tl =>
      have := hhd hd (by simp)
      simp [scanAsks, not_le.mpr this]
  | cons x pre ih =>
    intro rest hall hhd
    have hx := hall x (by simp)
    have hx1 : tb.price ≥ x.price := hx.1
    have hx2 : tb.updateId > x.updateId := hx.2
    simp only [List.cons_append, scanAsks, hx1, hx2, if_true]
    exact ih rest (fun y hy => hall y (List.mem_cons_of_mem _ hy)) hhd

/-- The defect of lines 42-44: once the top bid is the stale level of a crossed
top pair, the bid iterator is moved onto the node that is then erased, and the
next loop test uses it. -/
theorem truncate_stale_bid (bs : Book) (tb ta : OrderBookEntry) (rest : Book)
    (hp : tb.price ≥ ta.price) (hu : tb.updateId ≤ ta.updateId) :
    truncateOverlapEntries (bs ++ [tb]) (ta :: rest) = .undefinedBehaviour := by
  rw [truncate_snoc, scanAsks]
  simp [hp, not_lt.mpr hu]

/-- What a returning call has done: nothing to the bids, and the asks have
lost the levels at or below the top bid, all of them staler than it. -/
theorem truncate_returned (bids asks b' a' : Book)
    (h : truncateOverlapEntries bids asks = .returned b' a') :
    b' = bids ∧ ∃ pre, asks = pre ++ a' ∧
      (∀ x ∈ pre, ∃ tb ∈ bids.getLast?, x.price ≤ tb.price ∧ x.updateId < tb.updateId) ∧
      (∀ tb ∈ bids.getLast?, ∀ hd ∈ a'.head?, tb.price < hd.price) := by
  rcases book_cases bids with rfl | ⟨bs, tb, rfl⟩
  · rw [truncate_nil_bids] at h
    simp only [Outcome.returned.injEq] at h
    obtain ⟨rfl, rfl⟩ := h
    exact ⟨rfl, [], rfl, by simp, by simp⟩
  · rw [truncate_snoc] at h
    obtain ⟨hb, pre, hpre, hall, hhd⟩ := scanAsks_returned _ tb asks b' a' h
    refine ⟨hb, pre, hpre, ?_, ?_⟩
    · intro x hx
      exact ⟨tb, by simp, hall x hx⟩
    · intro tb' htb'
      have : tb' = tb := by simpa [eq_comm] using htb'
      subst this
      exact hhd

/-- In a well-formed book every level is priced at or below the top level. -/
theorem le_top_of_wellFormed (bs : Book) (tb : OrderBookEntry) (h : WellFormed (bs ++ [tb])) :
    ∀ b ∈ bs ++ [tb], b.price ≤ tb.price := by
  intro b hb
  rcases List.mem_append.mp hb with hb | hb
  · exact le_of_lt ((List.pairwise_append.mp h).2.2 b hb tb (by simp))
  · simp at hb; subst hb; exact le_refl _

/-- In a well-formed book every level is priced at or above the first level. -/
theorem head_le_of_wellFormed (hd : OrderBookEntry) (tl : Book) (h : WellFormed (hd :: tl)) :
    ∀ a ∈ hd :: tl, hd.price ≤ a.price := by
  intro a ha
  rcases List.mem_cons.mp ha with rfl | ha
  · exact le_refl _
  · exact le_of_lt ((List.pairwise_cons.mp h).1 a ha)

/-- Whenever the call returns on well-formed books, no remaining bid is at or
above a remaining ask. -/
theorem truncate_returned_noCross (bids asks b' a' : Book)
    (hb : WellFormed bids) (ha : WellFormed asks)
    (h : truncateOverlapEntries bids asks = .returned b' a') : NoCross b' a' := by
  obtain ⟨rfl, pre, rfl, -, hhd⟩ := truncate_returned bids asks b' a' h
  have ha' : WellFormed a' := (List.pairwise_append.mp ha).2.1
  rcases book_cases b' with rfl | ⟨bs, tb, rfl⟩
  · intro b hb; simp at hb
  · cases a' with
    | nil => intro b _ a haa; simp at haa
    | cons hd tl =>
      intro b hbm a ham
      have h1 := le_top_of_wellFormed bs tb hb b hbm
      have h2 := head_le_of_wellFormed hd tl ha' a ham
      have h3 := hhd tb (by simp) hd (by simp)
      exact lt_of_le_of_lt h1 (lt_of_lt_of_le h3 h2)

/-- A continuing pass erases exactly one node, from exactly one of the two sets. -/
theorem loopIteration_again (f f' : Frame) (h : loopIteration f = .again f') :
    (f'.bidBook = f.bidBook ∧ f'.askBook.length + 1 = f.askBook.length) ∨
    (f'.askBook = f.askBook ∧ f'.bidBook.length + 1 = f.bidBook.length) := by
  obtain ⟨bb, ab, ⟨bi⟩, ai⟩ := f
  cases bi with
  | invalidated => simp [loopIteration] at h
  | atRank i =>
    cases ai with
    | invalidated =>
      simp only [loopIteration] at h
      split_ifs at h
    | atRank j =>
      simp only [loopIteration] at h
      split_ifs at h with h1 h2
      split at h
      · split_ifs at h with h3 h4
        · left
          simp only [eraseTopAsk, SetIterator.increment, Book.erase] at h
          split_ifs at h with h5
          simp only [Step.again.injEq] at h
          subst h
          simp [List.length_eraseIdx, h5]
          omega
        · right
          cases i with
          | zero => simp [eraseTopBid, ReverseIterator.increment, SetIterator.decrement] at h
          | succ k =>
            simp only [eraseTopBid, ReverseIterator.increment, SetIterator.decrement,
              ReverseIterator.base, Book.erase] at h
            split_ifs at h with h5
            simp only [Step.again.injEq] at h
            subst h
            simp [List.length_eraseIdx, h5]
            omega
      · simp at h

/-! ## The claims -/

/-- C1 (no-cross postcondition), at a failing input. The bid side {101, id 3} and
the ask side {100, id 5} are well formed and crossed; the call erases the bid
through the iterator it has just moved onto it and then tests that iterator, so
it has no defined result and no remaining levels to be uncrossed. -/
theorem noCross_fails_on_stale_bid :
    WellFormed [⟨101, 1, 3⟩] ∧ WellFormed [⟨100, 1, 5⟩] ∧
    truncateOverlapEntries [⟨101, 1, 3⟩] [⟨100, 1, 5⟩] = .undefinedBehaviour ∧
    ¬ ∃ b' a', truncateOverlapEntries [⟨101, 1, 3⟩] [⟨100, 1, 5⟩] = .returned b' a' ∧
        NoCross b' a' := by
  refine ⟨by decide, by decide, by decide, ?_⟩
  rintro ⟨b', a', h, -⟩
  have h' : truncateOverlapEntries [⟨101, 1, 3⟩] [⟨100, 1, 5⟩] = .undefinedBehaviour := by decide
  rw [h'] at h
  exact Outcome.noConfusion h

/-- C2 (idempotence), at a failing input. On bids {99, 101} and asks {100} the
first call has no defined result, so there is no resolved pair that a second
call could leave unchanged. -/
theorem idempotence_fails_on_stale_bid :
    WellFormed [⟨99, 1, 1⟩, ⟨101, 1, 2⟩] ∧ WellFormed [⟨100, 1, 4⟩] ∧
    ¬ ∃ b' a', truncateOverlapEntries [⟨99, 1, 1⟩, ⟨101, 1, 2⟩] [⟨100, 1, 4⟩] = .returned b' a' ∧
        truncateOverlapEntries b' a' = .returned b' a' := by
  refine ⟨by decide, by decide, ?_⟩
  rintro ⟨b', a', h, -⟩
  have h' : truncateOverlapEntries [⟨99, 1, 1⟩, ⟨101, 1, 2⟩] [⟨100, 1, 4⟩]
      = .undefinedBehaviour := by decide
  rw [h'] at h
  exact Outcome.noConfusion h

/-- C3 (no-op on an already valid book). If a side is empty, or every bid is
priced strictly below every ask (the highest bid below the lowest ask), the call
returns and leaves both sides exactly as given. -/
theorem noop_on_valid_book (bids asks : Book)
    (h : bids = [] ∨ asks = [] ∨ NoCross bids asks) :
    truncateOverlapEntries bids asks = .returned bids asks := by
  rcases book_cases bids with rfl | ⟨bs, tb, rfl⟩
  · exact truncate_nil_bids asks
  · rw [truncate_snoc]
    cases asks with
    | nil => simp [scanAsks]
    | cons ta rest =>
      rcases h with h | h | h
      · simp at h
      · simp at h
      · have hlt : tb.price < ta.price := h tb (by simp) ta (by simp)
        simp [scanAsks, not_le.mpr hlt]

/-- C3 at the spec's example: highest bid 99, lowest ask 100. -/
theorem noop_on_valid_book_witness :
    truncateOverlapEntries [⟨98, 2, 1⟩, ⟨99, 1, 2⟩] [⟨100, 1, 3⟩, ⟨101, 3, 4⟩]
      = .returned [⟨98, 2, 1⟩, ⟨99, 1, 2⟩] [⟨100, 1, 3⟩, ⟨101, 3, 4⟩] :=
  noop_on_valid_book _ _ (Or.inr (Or.inr (by
    intro b hb a ha
    simp only [List.mem_cons, List.mem_singleton, List.not_mem_nil, or_false] at hb ha
    rcases hb with rfl | rfl <;> rcases ha with rfl | rfl <;> norm_num)))

/-- The one-level case of the ask-wins tie-break: a single bid that reaches a single staler ask
stays, unchanged, and the ask is erased. -/
theorem ask_wins_single (tb ta : OrderBookEntry)
    (hp : tb.price ≥ ta.price) (hu : tb.updateId > ta.updateId) :
    truncateOverlapEntries [tb] [ta] = .returned [tb] [] := by
  have := truncate_snoc [] tb [ta]
  simp only [List.nil_append] at this
  rw [this]
  simp [scanAsks, hp, hu]

/-- C4 (tie-break, ask wins), at a failing input. Bid {100, id 5} against asks
{99 id 3, 100 id 7}: the top pair is crossed with the bid fresher and the ask at
99 is erased, but the next pair makes the bid the stale one and the call ends
in undefined behaviour, so there is no resolved ask side. -/
theorem ask_wins_fails_on_later_stale_bid :
    WellFormed [⟨100, 1, 5⟩] ∧ WellFormed [⟨99, 1, 3⟩, ⟨100, 1, 7⟩] ∧
    truncateOverlapEntries [⟨100, 1, 5⟩] [⟨99, 1, 3⟩, ⟨100, 1, 7⟩] = .undefinedBehaviour ∧
    loopIteration ⟨[⟨100, 1, 5⟩], [⟨99, 1, 3⟩, ⟨100, 1, 7⟩],
        Book.rbegin [⟨100, 1, 5⟩], Book.begin [⟨99, 1, 3⟩, ⟨100, 1, 7⟩]⟩
      = .again ⟨[⟨100, 1, 5⟩], [⟨100, 1, 7⟩], Book.rbegin [⟨100, 1, 5⟩], .atRank 0⟩ := by
  refine ⟨by decide, by decide, by decide, by decide⟩

/-- C5 (tie-break, bid removed on equal or lower updateId), at the spec's two
examples: bid(100, id 3) against ask(100, id 5) and bid(100, id 7) against
ask(100, id 7). In both the bid is erased, the reverse iterator is left on the
erased node, and the call has no defined result. -/
theorem bid_removed_examples_undefined :
    truncateOverlapEntries [⟨100, 1, 3⟩] [⟨100, 1, 5⟩] = .undefinedBehaviour ∧
    truncateOverlapEntries [⟨100, 1, 7⟩] [⟨100, 1, 7⟩] = .undefinedBehaviour ∧
    loopIteration ⟨[⟨100, 1, 7⟩], [⟨100, 1, 7⟩], Book.rbegin [⟨100, 1, 7⟩],
        Book.begin [⟨100, 1, 7⟩]⟩
      = .again ⟨[], [⟨100, 1, 7⟩], ⟨.invalidated⟩, .atRank 0⟩ := by
  refine ⟨by decide, by decide, by decide⟩

/-- C6 (minimality of removal), a counterexample. Bid {100, id 5} against asks
{98 id 1, 99 id 2}: the call returns having erased both asks, two levels, while
erasing the one bid instead also leaves no bid at or above an ask. -/
theorem minimality_counterexample :
    WellFormed [⟨100, 1, 5⟩] ∧ WellFormed [⟨98, 1, 1⟩, ⟨99, 1, 2⟩] ∧
    truncateOverlapEntries [⟨100, 1, 5⟩] [⟨98, 1, 1⟩, ⟨99, 1, 2⟩] = .returned [⟨100, 1, 5⟩] [] ∧
    List.Sublist ([] : Book) [⟨100, 1, 5⟩] ∧
    NoCross [] [⟨98, 1, 1⟩, ⟨99, 1, 2⟩] ∧
    removedCount [⟨100, 1, 5⟩] [⟨98, 1, 1⟩, ⟨99, 1, 2⟩] [] [⟨98, 1, 1⟩, ⟨99, 1, 2⟩]
      < removedCount [⟨100, 1, 5⟩] [⟨98, 1, 1⟩, ⟨99, 1, 2⟩] [⟨100, 1, 5⟩] [] := by
  refine ⟨by decide, by decide, by decide, by simp, ?_, by decide⟩
  intro b hb
  simp at hb

/-- C6 as amended. Whenever the call returns on well-formed sides, what remains
is uncrossed and the set of erased levels is minimal for inclusion: survivors
`b''`, `a''` that keep everything the call kept and are uncrossed are exactly what
the call kept, so no erased level can be put back. -/
theorem removal_minimal_for_inclusion (bids asks b' a' : Book)
    (hb : WellFormed bids) (ha : WellFormed asks)
    (h : truncateOverlapEntries bids asks = .returned b' a') :
    NoCross b' a' ∧
    ∀ b'' a'' : Book, b'.Sublist b'' → b''.Sublist bids → a'.Sublist a'' → a''.Sublist asks →
      NoCross b'' a'' → b'' = b' ∧ a'' = a' := by
  refine ⟨truncate_returned_noCross bids asks b' a' hb ha h, ?_⟩
  obtain ⟨rfl, pre, rfl, hall, -⟩ := truncate_returned bids asks b' a' h
  intro b'' a'' hb1 hb2 ha1 ha2 hn
  have hbeq : b'' = b' := List.Sublist.antisymm hb2 hb1
  subst hbeq
  refine ⟨rfl, ?_⟩
  obtain ⟨l1, l2, rfl, hl1, hl2⟩ := List.sublist_append_iff.mp ha2
  have hnil : l1 = [] := by
    cases l1 with
    | nil => rfl
    | cons x l1 =>
      exfalso
      obtain ⟨tb, htb, hle, -⟩ := hall x (hl1.subset (by simp))
      have htb' : tb ∈ b'' := List.mem_of_getLast?_eq_some htb
      exact absurd (hn tb htb' x (by simp)) (not_lt.mpr hle)
  subst hnil
  exact List.Sublist.antisymm (by simpa using hl2) (by simpa using ha1)

/-- C6 as amended, at bid {100 id 5} and asks {98 id 1, 99 id 2, 101 id 9}. -/
theorem removal_minimal_for_inclusion_witness :
    NoCross [⟨100, 1, 5⟩] [⟨101, 1, 9⟩] ∧
    ∀ b'' a'' : Book, List.Sublist [⟨100, 1, 5⟩] b'' → b''.Sublist [⟨100, 1, 5⟩] →
      List.Sublist [⟨101, 1, 9⟩] a'' → a''.Sublist [⟨98, 1, 1⟩, ⟨99, 1, 2⟩, ⟨101, 1, 9⟩] →
      NoCross b'' a'' → b'' = [⟨100, 1, 5⟩] ∧ a'' = [⟨101, 1, 9⟩] :=
  removal_minimal_for_inclusion [⟨100, 1, 5⟩] [⟨98, 1, 1⟩, ⟨99, 1, 2⟩, ⟨101, 1, 9⟩]
    [⟨100, 1, 5⟩] [⟨101, 1, 9⟩] (by decide) (by decide) (by decide)

/-- C7 (remove-only, no mutation, no reordering), at a failing input. On bids
{99 id 1, 100 id 2} and asks {100 id 2, 101 id 3} the call has no defined result:
there are no resolved sides, so none that consist of the lowest bids and the
highest asks of the input. -/
theorem remove_only_fails_on_stale_bid :
    WellFormed [⟨99, 1, 1⟩, ⟨100, 1, 2⟩] ∧ WellFormed [⟨100, 1, 2⟩, ⟨101, 1, 3⟩] ∧
    ¬ ∃ k m, truncateOverlapEntries [⟨99, 1, 1⟩, ⟨100, 1, 2⟩] [⟨100, 1, 2⟩, ⟨101, 1, 3⟩]
        = .returned (List.take k [⟨99, 1, 1⟩, ⟨100, 1, 2⟩])
            (List.drop m [⟨100, 1, 2⟩, ⟨101, 1, 3⟩]) := by
  refine ⟨by decide, by decide, ?_⟩
  rintro ⟨k, m, h⟩
  have h' : truncateOverlapEntries [⟨99, 1, 1⟩, ⟨100, 1, 2⟩] [⟨100, 1, 2⟩, ⟨101, 1, 3⟩]
      = .undefinedBehaviour := by decide
  rw [h'] at h
  exact Outcome.noConfusion h

/-- C8 (levels outside the crossed region are untouched), at a failing input.
On bids {99 id 1, 100 id 3} and asks {100 id 5, 102 id 6} the bid at 99 is below
every ask and the ask at 102 above every bid, but the call has no defined
result, so no resolved sides in which they are still present. -/
theorem outside_region_fails_on_stale_bid :
    WellFormed [⟨99, 1, 1⟩, ⟨100, 1, 3⟩] ∧ WellFormed [⟨100, 1, 5⟩, ⟨102, 1, 6⟩] ∧
    ¬ ∃ b' a', truncateOverlapEntries [⟨99, 1, 1⟩, ⟨100, 1, 3⟩] [⟨100, 1, 5⟩, ⟨102, 1, 6⟩]
        = .returned b' a' ∧ (⟨99, 1, 1⟩ : OrderBookEntry) ∈ b' ∧
          (⟨102, 1, 6⟩ : OrderBookEntry) ∈ a' := by
  refine ⟨by decide, by decide, ?_⟩
  rintro ⟨b', a', h, -⟩
  have h' : truncateOverlapEntries [⟨99, 1, 1⟩, ⟨100, 1, 3⟩] [⟨100, 1, 5⟩, ⟨102, 1, 6⟩]
      = .undefinedBehaviour := by decide
  rw [h'] at h
  exact Outcome.noConfusion h

/-- C9 (termination with no failure), at a failing input. On bid {101 id 1} and
asks {100 id 2, 102 id 3} the first pass erases the bid and the second pass
tests the iterator that was left on it: the call does not come to a defined
return. -/
theorem total_fails_on_stale_bid :
    WellFormed [⟨101, 1, 1⟩] ∧ WellFormed [⟨100, 1, 2⟩, ⟨102, 1, 3⟩] ∧
    loopIteration ⟨[⟨101, 1, 1⟩], [⟨100, 1, 2⟩, ⟨102, 1, 3⟩], Book.rbegin [⟨101, 1, 1⟩],
        Book.begin [⟨100, 1, 2⟩, ⟨102, 1, 3⟩]⟩
      = .again ⟨[], [⟨100, 1, 2⟩, ⟨102, 1, 3⟩], ⟨.invalidated⟩, .atRank 0⟩ ∧
    loopIteration ⟨[], [⟨100, 1, 2⟩, ⟨102, 1, 3⟩], ⟨.invalidated⟩, .atRank 0⟩
      = .undefinedBehaviour ∧
    truncateOverlapEntries [⟨101, 1, 1⟩] [⟨100, 1, 2⟩, ⟨102, 1, 3⟩] = .undefinedBehaviour := by
  refine ⟨by decide, by decide, by decide, by decide, by decide⟩

theorem ladder_wellFormed (n : Nat) : WellFormed (ladder n) := by
  unfold WellFormed ladder
  rw [List.pairwise_map]
  refine (List.pairwise_lt_range n).imp ?_
  intro a b h
  show (a : ℚ) < (b : ℚ)
  exact_mod_cast h

/-- One bid above a ladder of staler asks: the call returns with every ask erased. -/
theorem truncate_ladder (n : Nat) :
    truncateOverlapEntries [⟨(n : ℚ), 1, 1⟩] (ladder n) = .returned [⟨(n : ℚ), 1, 1⟩] [] := by
  have h := truncate_snoc [] ⟨(n : ℚ), 1, 1⟩ (ladder n)
  simp only [List.nil_append] at h
  rw [h]
  have := scanAsks_of_fresher [⟨(n : ℚ), 1, 1⟩] ⟨(n : ℚ), 1, 1⟩ (ladder n) []
    (by
      intro x hx
      simp only [ladder, List.mem_map, List.mem_range] at hx
      obtain ⟨i, hi, rfl⟩ := hx
      refine ⟨?_, by norm_num⟩
      show (i : ℚ) ≤ (n : ℚ)
      exact_mod_cast hi.le)
    (by simp)
  simpa using this

/-- C10 (iteration bound), refuted. No constant `c` bounds the number of erased
levels by `c * min(|bids|, |asks|)`, even over the calls that return: one bid
above `c + 1` staler asks has all `c + 1` asks erased while the minimum is 1. -/
theorem min_bound_fails :
    ¬ ∃ c : Nat, ∀ bids asks b' a' : Book, WellFormed bids → WellFormed asks →
        truncateOverlapEntries bids asks = .returned b' a' →
        removedCount bids asks b' a' ≤ c * min bids.length asks.length := by
  rintro ⟨c, hc⟩
  have h := hc [⟨((c + 1 : Nat) : ℚ), 1, 1⟩] (ladder (c + 1)) [⟨((c + 1 : Nat) : ℚ), 1, 1⟩] []
    (by simp [WellFormed]) (ladder_wellFormed _) (truncate_ladder (c + 1))
  simp only [removedCount, ladder, List.length_map, List.length_range, List.length_cons,
    List.length_nil] at h
  have hmin : min (0 + 1) (c + 1) = 1 := by omega
  rw [hmin] at h
  omega

/-- C10 as amended. Whenever the call returns, the number of erased levels is at
most `|bids| + |asks| - 1`, and it is 0 when a side is empty. -/
theorem removed_le_total_pred (bids asks b' a' : Book)
    (h : truncateOverlapEntries bids asks = .returned b' a') :
    removedCount bids asks b' a' ≤ bids.length + asks.length - 1 ∧
    (bids = [] ∨ asks = [] → removedCount bids asks b' a' = 0) := by
  obtain ⟨rfl, pre, rfl, hall, -⟩ := truncate_returned bids asks b' a' h
  have hcount : removedCount b' (pre ++ a') b' a' = pre.length := by
    simp only [removedCount, List.length_append]; omega
  rw [hcount]
  cases pre with
  | nil => simp
  | cons x pre =>
    obtain ⟨tb, htb, -⟩ := hall x (by simp)
    have hne : b' ≠ [] := by
      rintro rfl
      simp at htb
    have hpos : 0 < b'.length := List.length_pos.mpr hne
    refine ⟨by simp only [List.length_append, List.length_cons]; omega, ?_⟩
    rintro (hnil | hnil)
    · exact absurd hnil hne
    · simp at hnil

/-- C10 as amended, at bid {100 id 5} and asks {98 id 1, 99 id 2, 101 id 0}: two
asks are erased, which is more than `min(1, 3)` and at most `1 + 3 - 1`. -/
theorem removed_le_total_pred_witness :
    removedCount [⟨100, 1, 5⟩] [⟨98, 1, 1⟩, ⟨99, 1, 2⟩, ⟨101, 1, 0⟩] [⟨100, 1, 5⟩] [⟨101, 1, 0⟩]
        ≤ 1 + 3 - 1 ∧
    (([⟨100, 1, 5⟩] : Book) = [] ∨ ([⟨98, 1, 1⟩, ⟨99, 1, 2⟩, ⟨101, 1, 0⟩] : Book) = [] →
      removedCount [⟨100, 1, 5⟩] [⟨98, 1, 1⟩, ⟨99, 1, 2⟩, ⟨101, 1, 0⟩] [⟨100, 1, 5⟩]
        [⟨101, 1, 0⟩] = 0) :=
  removed_le_total_pred [⟨100, 1, 5⟩] [⟨98, 1, 1⟩, ⟨99, 1, 2⟩, ⟨101, 1, 0⟩] [⟨100, 1, 5⟩]
    [⟨101, 1, 0⟩] (by decide)

/-- C11 (price-only ordering). `operator<` holds exactly when the left price is
below the right price, whatever the amounts and updateIds; it is irreflexive and
transitive, exactly one of `a < b`, `b < a`, equal prices holds, and levels of
equal price are not ordered either way. -/
theorem less_price_only (a b c : OrderBookEntry) (x y : ℚ) (u v : ℤ) :
    (a.less b = true ↔ a.price < b.price) ∧
    a.less b = OrderBookEntry.less ⟨a.price, x, u⟩ ⟨b.price, y, v⟩ ∧
    a.less a = false ∧
    (a.less b = true → b.less c = true → a.less c = true) ∧
    ((a.less b = true ∧ b.less a = false ∧ a.price ≠ b.price) ∨
     (a.less b = false ∧ b.less a = true ∧ a.price ≠ b.price) ∨
     (a.less b = false ∧ b.less a = false ∧ a.price = b.price)) ∧
    (a.price = b.price → a.less b = false ∧ b.less a = false) := by
  have hlt : ∀ p q : OrderBookEntry, p.less q = true ↔ p.price < q.price := by
    intro p q; simp [OrderBookEntry.less]
  have hge : ∀ p q : OrderBookEntry, p.less q = false ↔ q.price ≤ p.price := by
    intro p q; simp [OrderBookEntry.less]
  refine ⟨hlt a b, rfl, (hge a a).mpr (le_refl _), ?_, ?_, ?_⟩
  · intro h1 h2
    exact (hlt a c).mpr (lt_trans ((hlt a b).mp h1) ((hlt b c).mp h2))
  · rcases lt_trichotomy a.price b.price with h | h | h
    · exact Or.inl ⟨(hlt a b).mpr h, (hge b a).mpr h.le, h.ne⟩
    · exact Or.inr (Or.inr ⟨(hge a b).mpr h.ge, (hge b a).mpr h.le, h⟩)
    · exact Or.inr (Or.inl ⟨(hge a b).mpr h.le, (hlt b a).mpr h, h.ne'⟩)
  · intro h
    exact ⟨(hge a b).mpr h.ge, (hge b a).mpr h.le⟩

/-- C12 (construction and accessors). The level built from `p`, `a`, `u` reads
back `p`, `a`, `u`; a copy and an assignment have the three fields of their
source; the default level is (0, 0, 0). -/
theorem construct_and_read (p a : ℚ) (u : ℤ) (self other : OrderBookEntry) :
    (OrderBookEntry.mk p a u).getPrice = p ∧
    (OrderBookEntry.mk p a u).getAmount = a ∧
    (OrderBookEntry.mk p a u).getUpdateId = u ∧
    (OrderBookEntry.copy other).getPrice = other.getPrice ∧
    (OrderBookEntry.copy other).getAmount = other.getAmount ∧
    (OrderBookEntry.copy other).getUpdateId = other.getUpdateId ∧
    (self.assign other).getPrice = other.getPrice ∧
    (self.assign other).getAmount = other.getAmount ∧
    (self.assign other).getUpdateId = other.getUpdateId ∧
    OrderBookEntry.copy other = other ∧ self.assign other = other ∧
    OrderBookEntry.default.getPrice = 0 ∧ OrderBookEntry.default.getAmount = 0 ∧
    OrderBookEntry.default.getUpdateId = 0 :=
  ⟨rfl, rfl, rfl, rfl, rfl, rfl, rfl, rfl, rfl, rfl, rfl, rfl, rfl, rfl⟩

/-- Against a top bid that is fresher than the asks it reaches, the reference
procedure removes exactly those asks. -/
theorem referenceLoop_of_fresher (bs : Book) (tb : OrderBookEntry) (rest : Book)
    (hhd : ∀ hd ∈ rest.head?, tb.price < hd.price) :
    ∀ (pre : Book) (fuel : Nat),
      (∀ x ∈ pre, x.price ≤ tb.price ∧ x.updateId < tb.updateId) → pre.length ≤ fuel →
      referenceLoop fuel (bs ++ [tb]) (pre ++ rest) = (bs ++ [tb], rest) := by
  intro pre
  induction pre with
  | nil =>
    intro fuel _ _
    cases fuel with
    | zero => rfl
    | succ n =>
      cases rest with
      | nil => simp [referenceLoop]
      | cons hd tl =>
        have := hhd hd (by simp)
        simp [referenceLoop, not_le.mpr this]
  | cons x pre ih =>
    intro fuel hall hf
    obtain ⟨n, rfl⟩ : ∃ n, fuel = n + 1 := ⟨fuel - 1, by simp at hf; omega⟩
    have hx := hall x (by simp)
    have hx1 : tb.price ≥ x.price := hx.1
    have hx2 : tb.updateId > x.updateId := hx.2
    have hn : pre.length ≤ n := by simp at hf; omega
    simp only [referenceLoop, List.getLast?_append, List.getLast?_singleton, List.cons_append,
      List.head?_cons, List.tail_cons, Option.or_some, hx1, hx2, if_true]
    simpa using ih n (fun y hy => hall y (List.mem_cons_of_mem _ hy)) hn

/-- Whenever the call returns, it returns what the reference procedure computes. -/
theorem truncate_returned_eq_reference (bids asks b' a' : Book)
    (h : truncateOverlapEntries bids asks = .returned b' a') :
    referenceUnwind bids asks = (b', a') := by
  rcases book_cases bids with rfl | ⟨bs, tb, rfl⟩
  · rw [truncate_nil_bids] at h
    simp only [Outcome.returned.injEq] at h
    obtain ⟨rfl, rfl⟩ := h
    unfold referenceUnwind
    cases asks with
    | nil => rfl
    | cons hd tl => simp [referenceLoop]
  · rw [truncate_snoc] at h
    obtain ⟨rfl, pre, rfl, hall, hhd⟩ := scanAsks_returned _ tb asks b' a' h
    unfold referenceUnwind
    exact referenceLoop_of_fresher bs tb a' hhd pre _ hall (by simp; omega)

/-- The spec's multi-level example with updateIds numbered per side (bids 1, 2,
3 and asks 1, 2): the top bid is fresher than both asks, the call returns, and
it returns what the reference procedure computes. -/
theorem unwind_example_fresher_bids :
    truncateOverlapEntries [⟨99, 1, 1⟩, ⟨100, 1, 2⟩, ⟨101, 1, 3⟩] [⟨98.5, 1, 1⟩, ⟨100.5, 1, 2⟩]
      = .returned [⟨99, 1, 1⟩, ⟨100, 1, 2⟩, ⟨101, 1, 3⟩] [] ∧
    referenceUnwind [⟨99, 1, 1⟩, ⟨100, 1, 2⟩, ⟨101, 1, 3⟩] [⟨98.5, 1, 1⟩, ⟨100.5, 1, 2⟩]
      = ([⟨99, 1, 1⟩, ⟨100, 1, 2⟩, ⟨101, 1, 3⟩], []) := by
  have h : truncateOverlapEntries [⟨99, 1, 1⟩, ⟨100, 1, 2⟩, ⟨101, 1, 3⟩]
      [⟨98.5, 1, 1⟩, ⟨100.5, 1, 2⟩] = .returned [⟨99, 1, 1⟩, ⟨100, 1, 2⟩, ⟨101, 1, 3⟩] [] := by
    have h1 := truncate_snoc [⟨99, 1, 1⟩, ⟨100, 1, 2⟩] ⟨101, 1, 3⟩ [⟨98.5, 1, 1⟩, ⟨100.5, 1, 2⟩]
    simp only [List.cons_append, List.nil_append] at h1
    rw [h1]
    norm_num [scanAsks]
  exact ⟨h, truncate_returned_eq_reference _ _ _ _ h⟩

/-- C13 (step-by-step unwind), at the spec's example with updateIds in feed order:
bids {99 id 1, 100 id 2, 101 id 3}, asks {98.5 id 4, 100.5 id 5}. The reference
procedure strips the three bids, each staler than the ask at 98.5, and ends with
no bid and both asks. The cursor loop erases the bid at 101, is left with its
bid cursor on the erased node, and has no defined result. -/
theorem unwind_differs_from_reference :
    WellFormed [⟨99, 1, 1⟩, ⟨100, 1, 2⟩, ⟨101, 1, 3⟩] ∧
    WellFormed [⟨98.5, 1, 4⟩, ⟨100.5, 1, 5⟩] ∧
    referenceUnwind [⟨99, 1, 1⟩, ⟨100, 1, 2⟩, ⟨101, 1, 3⟩] [⟨98.5, 1, 4⟩, ⟨100.5, 1, 5⟩]
      = ([], [⟨98.5, 1, 4⟩, ⟨100.5, 1, 5⟩]) ∧
    truncateOverlapEntries [⟨99, 1, 1⟩, ⟨100, 1, 2⟩, ⟨101, 1, 3⟩]
      [⟨98.5, 1, 4⟩, ⟨100.5, 1, 5⟩] = .undefinedBehaviour := by
  refine ⟨by decide, ?_, ?_, ?_⟩
  · norm_num [WellFormed]
  · norm_num [referenceUnwind, referenceLoop]
  · exact truncate_stale_bid [⟨99, 1, 1⟩, ⟨100, 1, 2⟩] ⟨101, 1, 3⟩ ⟨98.5, 1, 4⟩ [⟨100.5, 1, 5⟩]
      (by norm_num) (by norm_num)

/-- The ask side of the erase-and-advance pattern is sound: after
`askBook.erase(askIterator++)` the ask iterator is live in the new ask set. -/
theorem eraseTopAsk_live (f f' : Frame) (h : eraseTopAsk f = .again f') :
    f'.askIterator.live f'.askBook = true ∧ f'.bidBook = f.bidBook ∧
      f'.bidIterator = f.bidIterator := by
  obtain ⟨bb, ab, bi, ai⟩ := f
  cases ai with
  | invalidated => simp [eraseTopAsk, SetIterator.increment] at h
  | atRank j =>
    simp only [eraseTopAsk, SetIterator.increment, Book.erase] at h
    split_ifs at h with h1
    simp only [Step.again.injEq] at h
    subst h
    simp [SetIterator.afterErase, SetIterator.live, List.length_eraseIdx, h1]
    omega

/-- The bid side is not: whenever lines 42-44 run to their end, the base of the
reverse bid iterator is the node that was erased. -/
theorem eraseTopBid_invalidates (f f' : Frame) (h : eraseTopBid f = .again f') :
    f'.bidIterator.current = .invalidated := by
  obtain ⟨bb, ab, ⟨bi⟩, ai⟩ := f
  cases bi with
  | invalidated => simp [eraseTopBid, ReverseIterator.increment, SetIterator.decrement] at h
  | atRank i =>
    cases i with
    | zero => simp [eraseTopBid, ReverseIterator.increment, SetIterator.decrement] at h
    | succ k =>
      simp only [eraseTopBid, ReverseIterator.increment, SetIterator.decrement,
        ReverseIterator.base, Book.erase] at h
      split_ifs at h with h1
      simp only [Step.again.injEq] at h
      subst h
      simp [SetIterator.afterErase]

/-- C14 (cursor validity under erase), at a failing input. On bids {99 id 1,
100 id 2} and ask {99 id 5} both cursors are live at the start; the first pass
erases the bid at 100 and leaves the base of the reverse bid iterator on the
erased node, not on a node of the set nor on its end; the next pass uses it. -/
theorem bid_cursor_dangles_after_erase :
    Frame.cursorsLive ⟨[⟨99, 1, 1⟩, ⟨100, 1, 2⟩], [⟨99, 1, 5⟩],
        Book.rbegin [⟨99, 1, 1⟩, ⟨100, 1, 2⟩], Book.begin [⟨99, 1, 5⟩]⟩ = true ∧
    loopIteration ⟨[⟨99, 1, 1⟩, ⟨100, 1, 2⟩], [⟨99, 1, 5⟩],
        Book.rbegin [⟨99, 1, 1⟩, ⟨100, 1, 2⟩], Book.begin [⟨99, 1, 5⟩]⟩
      = .again ⟨[⟨99, 1, 1⟩], [⟨99, 1, 5⟩], ⟨.invalidated⟩, .atRank 0⟩ ∧
    Frame.cursorsLive ⟨[⟨99, 1, 1⟩], [⟨99, 1, 5⟩], ⟨.invalidated⟩, .atRank 0⟩ = false ∧
    loopIteration ⟨[⟨99, 1, 1⟩], [⟨99, 1, 5⟩], ⟨.invalidated⟩, .atRank 0⟩
      = .undefinedBehaviour := by
  refine ⟨by decide, by decide, by decide, by decide⟩

/-- Whenever the call returns on well-formed sides, both sides it leaves are
well formed. -/
theorem truncate_returned_wellFormed (bids asks b' a' : Book)
    (hb : WellFormed bids) (ha : WellFormed asks)
    (h : truncateOverlapEntries bids asks = .returned b' a') :
    WellFormed b' ∧ WellFormed a' := by
  obtain ⟨rfl, pre, rfl, -, -⟩ := truncate_returned bids asks b' a' h
  exact ⟨hb, (List.pairwise_append.mp ha).2.1⟩

/-- C15 (book-side invariant preserved), at a failing input. Bids {98 id 4,
100 id 1} and asks {99 id 2, 101 id 3} are strictly ascending, but the call
erases the bid at 100 and then uses the invalidated bid cursor: it leaves no
defined sides, so none that are strictly ascending. -/
theorem invariant_fails_on_stale_bid :
    WellFormed [⟨98, 1, 4⟩, ⟨100, 1, 1⟩] ∧ WellFormed [⟨99, 1, 2⟩, ⟨101, 1, 3⟩] ∧
    ¬ ∃ b' a', truncateOverlapEntries [⟨98, 1, 4⟩, ⟨100, 1, 1⟩] [⟨99, 1, 2⟩, ⟨101, 1, 3⟩]
        = .returned b' a' ∧ WellFormed b' ∧ WellFormed a' := by
  refine ⟨by decide, by decide, ?_⟩
  rintro ⟨b', a', h, -⟩
  have h' : truncateOverlapEntries [⟨98, 1, 4⟩, ⟨100, 1, 1⟩] [⟨99, 1, 2⟩, ⟨101, 1, 3⟩]
      = .undefinedBehaviour := by decide
  rw [h'] at h
  exact Outcome.noConfusion h

/-- C16 (every removal is justified), at a failing input. On bids {99 id 10,
100 id 1} and ask {99 id 5} the bid at 99 is fresher than every ask, so it is
never to be removed; the call erases the bid at 100, justified by the ask, and
then uses the invalidated bid cursor: no resolved bid side is defined in which
the bid at 99 is kept. -/
theorem justified_removal_fails_on_stale_bid :
    WellFormed [⟨99, 1, 10⟩, ⟨100, 1, 1⟩] ∧ WellFormed [⟨99, 1, 5⟩] ∧
    (∀ a ∈ ([⟨99, 1, 5⟩] : Book), a.updateId < 10) ∧
    ¬ ∃ b' a', truncateOverlapEntries [⟨99, 1, 10⟩, ⟨100, 1, 1⟩] [⟨99, 1, 5⟩]
        = .returned b' a' ∧ (⟨99, 1, 10⟩ : OrderBookEntry) ∈ b' := by
  refine ⟨by decide, by decide, by decide, ?_⟩
  rintro ⟨b', a', h, -⟩
  have h' : truncateOverlapEntries [⟨99, 1, 10⟩, ⟨100, 1, 1⟩] [⟨99, 1, 5⟩]
      = .undefinedBehaviour := by decide
  rw [h'] at h
  exact Outcome.noConfusion h

/-- C17 (the whole book is never emptied), at a failing input. On bid {50 id 1}
and ask {50 id 1} the first pass empties the bid side and leaves the bid cursor
on the erased node, so the loop test cannot see that the side is exhausted and
the call goes on into undefined behaviour with the ask side still to be
examined: nothing guarantees that a side is left non-empty. -/
theorem nonempty_fails_on_stale_bid :
    WellFormed [⟨50, 1, 1⟩] ∧
    loopIteration ⟨[⟨50, 1, 1⟩], [⟨50, 1, 1⟩], Book.rbegin [⟨50, 1, 1⟩],
        Book.begin [⟨50, 1, 1⟩]⟩
      = .again ⟨[], [⟨50, 1, 1⟩], ⟨.invalidated⟩, .atRank 0⟩ ∧
    (⟨.invalidated⟩ : ReverseIterator) ≠ Book.rend [] ∧
    ¬ ∃ b' a', truncateOverlapEntries [⟨50, 1, 1⟩] [⟨50, 1, 1⟩] = .returned b' a' ∧
        (b' ≠ [] ∨ a' ≠ []) := by
  refine ⟨by decide, by decide, by decide, ?_⟩
  rintro ⟨b', a', h, -⟩
  have h' : truncateOverlapEntries [⟨50, 1, 1⟩] [⟨50, 1, 1⟩] = .undefinedBehaviour := by decide
  rw [h'] at h
  exact Outcome.noConfusion h

/-- Against a top bid fresher than every ask, the walk keeps exactly the asks
priced above it. -/
theorem scanAsks_fresh_filter (bids : Book) (tb : OrderBookEntry) :
    ∀ asks : Book, WellFormed asks → (∀ a ∈ asks, a.updateId < tb.updateId) →
      scanAsks bids tb asks
        = .returned bids (asks.filter (fun a => decide (tb.price < a.price))) := by
  intro asks
  induction asks with
  | nil => intro _ _; simp [scanAsks]
  | cons ta rest ih =>
    intro hwf hfresh
    have hu : tb.updateId > ta.updateId := hfresh ta (by simp)
    by_cases hp : tb.price ≥ ta.price
    · have hnot : ¬ tb.price < ta.price := not_lt.mpr hp
      simp only [scanAsks, hp, hu, if_true]
      rw [ih (List.pairwise_cons.mp hwf).2 (fun a ha => hfresh a (List.mem_cons_of_mem _ ha))]
      simp [List.filter_cons, hnot]
    · have hlt : tb.price < ta.price := not_le.mp hp
      have hall : ∀ a ∈ ta :: rest, decide (tb.price < a.price) = true := by
        intro a ha
        exact decide_eq_true (lt_of_lt_of_le hlt (head_le_of_wellFormed ta rest hwf a ha))
      simp only [scanAsks, hp, if_false]
      rw [List.filter_eq_self.mpr hall]

/-- C18 (one-sided resolution when the bids are uniformly fresher). On
well-formed sides in which every bid's updateId is strictly greater than every
ask's, the call returns, leaves the bid side as given, and leaves exactly the
asks priced strictly above every bid, that is above the highest bid (all asks
when there is no bid). -/
theorem one_sided_when_bids_fresher (bids asks : Book)
    (hb : WellFormed bids) (ha : WellFormed asks)
    (hfresh : ∀ b ∈ bids, ∀ a ∈ asks, a.updateId < b.updateId) :
    truncateOverlapEntries bids asks = .returned bids (asksAbove bids asks) := by
  rcases book_cases bids with rfl | ⟨bs, tb, rfl⟩
  · rw [truncate_nil_bids]
    simp [asksAbove]
  · rw [truncate_snoc, scanAsks_fresh_filter _ tb asks ha (fun a h => hfresh tb (by simp) a h)]
    have hcongr : asks.filter (fun a => decide (tb.price < a.price))
        = asksAbove (bs ++ [tb]) asks := by
      unfold asksAbove
      apply List.filter_congr
      intro a _
      apply decide_eq_decide.mpr
      constructor
      · intro hlt b hbm
        exact lt_of_le_of_lt (le_top_of_wellFormed bs tb hb b hbm) hlt
      · intro hall
        exact hall tb (by simp)
    rw [hcongr]

/-- C18 at bids {99 id 7, 100 id 8} and asks {98 id 1, 100 id 2, 101 id 3}: the
bids stay and the only ask left is the one at 101. -/
theorem one_sided_when_bids_fresher_witness :
    truncateOverlapEntries [⟨99, 1, 7⟩, ⟨100, 1, 8⟩] [⟨98, 1, 1⟩, ⟨100, 1, 2⟩, ⟨101, 1, 3⟩]
      = .returned [⟨99, 1, 7⟩, ⟨100, 1, 8⟩]
          (asksAbove [⟨99, 1, 7⟩, ⟨100, 1, 8⟩] [⟨98, 1, 1⟩, ⟨100, 1, 2⟩, ⟨101, 1, 3⟩]) ∧
    asksAbove [⟨99, 1, 7⟩, ⟨100, 1, 8⟩] [⟨98, 1, 1⟩, ⟨100, 1, 2⟩, ⟨101, 1, 3⟩]
      = [⟨101, 1, 3⟩] :=
  ⟨one_sided_when_bids_fresher [⟨99, 1, 7⟩, ⟨100, 1, 8⟩]
      [⟨98, 1, 1⟩, ⟨100, 1, 2⟩, ⟨101, 1, 3⟩] (by decide) (by decide) (by decide),
    by decide⟩

end OrderBook
